import Mathlib

/-
Verification development for the TribesViewer asset decoding core.

Shallow embedding of the relevant parts of src/TribesViewer
(CommonData.h, CommonData.cpp, main.cpp).  Machine integers are
modelled as Nat (with explicit mod 2^w where C performs 32-bit
wrap-around arithmetic, and explicit mod 65536 where a value is stored
into a uint16_t field); C float arithmetic on dyadic values is
modelled exactly over the rationals; the mutable int arrays of the LZH
decoder are modelled as functions Nat to Nat updated pointwise.
-/

/- ===== MemRStream (CommonData.h lines 144-178) ===== -/

/-- Bounds check and cursor advance of the scalar read template
MemRStream::read(T) (CommonData.h lines 157-167).  The C guard is
mPos >= mSize or mPos + sizeof(T) > mSize; mPos is uint32_t and
sizeof(T) is size_t, so the sum is computed in 64-bit arithmetic and
for pos, n below 2^32 it never wraps; the model therefore uses exact
Nat arithmetic.  Returns (success flag, new position). -/
def mem_read_scalar (pos mSize n : Nat) : Bool × Nat :=
  if pos ≥ mSize ∨ pos + n > mSize then (false, pos)
  else (true, pos + n)

/-- Bounds check of the fixed-array read template MemRStream::read(T (&)[N])
(CommonData.h lines 145-154).  Guard mPos >= mSize or mPos + sizeof(T)*N > mSize,
again with the sum promoted to size_t (64-bit), hence exact. -/
def mem_read_array (pos mSize elemSize count : Nat) : Bool × Nat :=
  if pos ≥ mSize ∨ pos + elemSize * count > mSize then (false, pos)
  else (true, pos + elemSize * count)

/-- Bounds check of the raw block read MemRStream::read(uint32_t size, void*)
(CommonData.h lines 169-178).  Here both mPos and size are uint32_t, so
the sum mPos + size is computed modulo 2^32 before comparison with mSize. -/
def mem_read_raw (pos mSize n : Nat) : Bool × Nat :=
  if pos ≥ mSize ∨ (pos + n) % 4294967296 > mSize then (false, pos)
  else (true, (pos + n) % 4294967296)

/- ===== IFFBlock (CommonData.h lines 292-321) ===== -/

/-- Constant IFFBlock::ALIGN_DWORD. -/
def ALIGN_DWORD : Nat := 0x80000000

/-- Model of IFFBlock::getSize (CommonData.h lines 307-313).  The size
field is uint32_t; the bitwise complement of ALIGN_DWORD over 32 bits
is 0x7FFFFFFF, the complement of 3 is 0xFFFFFFFC and the complement of
1 is 0xFFFFFFFE.  Additions are 32-bit, written with an explicit mod. -/
def IFFBlock_getSize (size : Nat) : Nat :=
  if size &&& ALIGN_DWORD ≠ 0 then
    (((size &&& 0x7FFFFFFF) + 3) % 4294967296) &&& 0xFFFFFFFC
  else
    (((size + 1) % 4294967296) &&& 0xFFFFFFFE)

/- ===== Palette (CommonData.h lines 340-351, CommonData.cpp lines 115-131) ===== -/

def PALETTE_NOREMAP : Nat := 0
def PALETTE_SHADEHAZE : Nat := 1
def PALETTE_TRANSLUCENT : Nat := 2
def PALETTE_COLORQUANT : Nat := 3
def PALETTE_ALPHAQUANT : Nat := 4
def PALETTE_ADDITIVEQUANT : Nat := 5
def PALETTE_ADDITIVE : Nat := 6
def PALETTE_SUBTRACTIVEQUANT : Nat := 7
def PALETTE_SUBTRACTIVE : Nat := 8

/-- Model of Palette::calcLookupSize (CommonData.cpp lines 115-131).
The members mShadeLevels and mHazeLevels are passed as parameters; the
C switch has cases for SHADEHAZE, TRANSLUCENT, ADDITIVE, SUBTRACTIVE
and NOREMAP only, every other type (including all quantized types)
falls to the default branch returning 0. -/
def calcLookupSize (mShadeLevels mHazeLevels ptype : Nat) : Nat :=
  let baseSize : Nat := 256 + (4 * (256 * 4))
  if ptype = PALETTE_SHADEHAZE then
    (256 * mShadeLevels * (mHazeLevels + 1)) + baseSize
  else if ptype = PALETTE_TRANSLUCENT ∨ ptype = PALETTE_ADDITIVE ∨
          ptype = PALETTE_SUBTRACTIVE then
    65536 + baseSize
  else if ptype = PALETTE_NOREMAP then
    256 + baseSize
  else 0

/- ===== Shape keyframe flags and the version < 3 keyframe decode
   (main.cpp lines 1753-1776 and 2088-2100) ===== -/

def KEYFRAME_FRAME_MATTERS : Nat := 1 <<< 12
def KEYFRAME_MAT_MATTERS : Nat := 1 <<< 13
def KEYFRAME_VIS_MATTERS : Nat := 1 <<< 14
def KEYFRAME_VIS : Nat := 1 <<< 15
def KEYFRAME_VIS_V2 : Nat := 1 <<< 31
def KEYFRAME_VALID_V2 : Nat := 1 <<< 30
def KEYFRAME_KEY_MASK_V2 : Nat := 0x3FFFFFFF

/-- Model of the version < 3 keyframe decode in Shape::read
(main.cpp lines 2090-2099).  The packed word tmp is uint32_t; the
destination fields key and matIndex are uint16_t, so the assignment
key = tmp and KEYFRAME_KEY_MASK_V2 truncates to the low 16 bits (all
flag values stored into matIndex are below 2^16, so no truncation
occurs there).  Returns (key, matIndex). -/
def decodeKeyframeV2 (tmp : Nat) : Nat × Nat :=
  let key := (tmp &&& KEYFRAME_KEY_MASK_V2) % 65536
  let mat := KEYFRAME_FRAME_MATTERS
  let mat := if tmp &&& KEYFRAME_VALID_V2 = 0 then mat ||| KEYFRAME_VIS_MATTERS else mat
  let mat := if tmp &&& KEYFRAME_VIS_V2 ≠ 0 then mat ||| KEYFRAME_VIS else mat
  (key, mat)

/- ===== Detail selection (main.cpp lines 3220-3242) ===== -/

/-- Constant produced by the dist <= 0 branch of ShapeViewer::selectDetail
(main.cpp lines 3223-3226): size = 1000.0f, exactly representable. -/
def lodSizeAtNonPositiveDist : ℚ := 1000

/-- Model of the selection loop of ShapeViewer::selectDetail
(main.cpp lines 3233-3241): mCurrentDetail starts at 0 and is
overwritten by every index i with size <= details[i].size, so it ends
at the last such index.  A Detail is modelled as the pair
(rootNode, size threshold); float comparison on the computed size is
modelled exactly over the rationals. -/
def selectDetail (size : ℚ) (details : List (Int × ℚ)) : Nat :=
  (List.range details.length).foldl
    (fun cur i => if size ≤ (details.getD i (0, 0)).2 then i else cur) 0

/- ===== Thread advance (main.cpp lines 2423-2441 and 2599-2636) ===== -/

inductive ThreadState where
  | STOPPED
  | PLAYING
  | PLAYING_TRANSITION_WAIT
  | TRANSITIONING
deriving DecidableEq

/-- Fields of Shape::Sequence used by advanceThreads: cyclic (an int32
tested for nonzero, modelled as Bool) and duration (float, modelled
exactly as a rational for the dyadic values of the claims). -/
structure SequenceM where
  cyclic : Bool
  duration : ℚ
deriving DecidableEq

/-- State touched by ShapeViewer::advanceThreads for a single thread:
the thread fields sequenceIdx, pos and state, together with the
mLastKeyframe caches of all RuntimeObjectInfo records and a counter of
how many times the reset-all-caches loop (main.cpp lines 2622-2625)
has run. -/
structure AnimState where
  sequenceIdx : Int
  pos : ℚ
  state : ThreadState
  lastKeyframes : List Int
  resets : Nat
deriving DecidableEq

/-- Model of one ShapeViewer::advanceThreads(dt) call (main.cpp lines
2599-2636) for a viewer with a single thread.  Threads with an invalid
sequence index are skipped; the C switch lets PLAYING_TRANSITION_WAIT
fall through into the PLAYING case; pos advances by dt / duration; on
pos > 1 a cyclic sequence wraps (pos -= 1) and sets every cached last
keyframe to -1, a non-cyclic sequence clamps pos to 1 and stops. -/
def advanceThreads (seqs : List SequenceM) (dt : ℚ) (s : AnimState) : AnimState :=
  if s.sequenceIdx = -1 ∨ s.sequenceIdx ≥ (seqs.length : Int) then s
  else
    let seq := seqs.getD s.sequenceIdx.toNat ⟨false, 1⟩
    match s.state with
    | ThreadState.STOPPED => s
    | ThreadState.TRANSITIONING => s
    | ThreadState.PLAYING_TRANSITION_WAIT =>
      advanceThreadsPlaying seq dt s
    | ThreadState.PLAYING =>
      advanceThreadsPlaying seq dt s
where
  advanceThreadsPlaying (seq : SequenceM) (dt : ℚ) (s : AnimState) : AnimState :=
    let pos := s.pos + dt / seq.duration
    if pos > 1 then
      if seq.cyclic then
        { s with pos := pos - 1,
                 lastKeyframes := s.lastKeyframes.map (fun _ => -1),
                 resets := s.resets + 1 }
      else
        { s with pos := 1, state := ThreadState.STOPPED }
    else
      { s with pos := pos }

/-- Repeated advanceThreads calls, one per element of dts. -/
def advanceRun (seqs : List SequenceM) (dts : List ℚ) (s : AnimState) : AnimState :=
  dts.foldl (fun s dt => advanceThreads seqs dt s) s

/- ===== Shape::setupNodeList (main.cpp lines 1930-1970) ===== -/

/-- Comparator of the std::sort call in Shape::setupNodeList
(main.cpp lines 1942-1947), as the reflexive total order underlying
the strict (parentIdx, nodeIdx) lexicographic comparison.  A pair is
(nodeIdx, parentIdx). -/
def nodeSortLE (a b : Nat × Int) : Prop :=
  a.2 < b.2 ∨ (a.2 = b.2 ∧ a.1 ≤ b.1)

instance : DecidableRel nodeSortLE := fun a b => by
  unfold nodeSortLE; infer_instance

instance : IsTotal (Nat × Int) nodeSortLE where
  total a b := by unfold nodeSortLE; omega

instance : IsTrans (Nat × Int) nodeSortLE where
  trans a b c := by unfold nodeSortLE; omega

/-- Pair list (nodeIdx, parentIdx) built by the first loop of
setupNodeList (main.cpp lines 1933-1939). -/
def nodePairs (parents : List Int) : List (Nat × Int) :=
  (List.range parents.length).map (fun i => (i, parents.getD i 0))

/-- The pair list sorted by the comparator.  Keys are distinct
(nodeIdx is unique) so the sorted result of std::sort is uniquely
determined; insertion sort computes it. -/
def sortedNodes (parents : List Int) : List (Nat × Int) :=
  List.insertionSort nodeSortLE
    ((List.range parents.length).map (fun i => (i, parents.getD i 0)))

/-- Run grouping of the double loop of setupNodeList (main.cpp lines
1952-1969): walking the sorted pair list, each maximal run of a common
parentIdx value emits one record (parentIdx, firstChild, numChildren),
where firstChild is the size of the flattened child-id array when the
run starts.  The accumulator carries the current run. -/
def groupRunsAux : List (Nat × Int) → Int → Nat → Nat → List (Int × Nat × Nat)
  | [], curPar, curStart, curLen => [(curPar, curStart, curLen)]
  | y :: ys, curPar, curStart, curLen =>
    if y.2 = curPar then groupRunsAux ys curPar curStart (curLen + 1)
    else (curPar, curStart, curLen) :: groupRunsAux ys y.2 (curStart + curLen) 1

/-- Runs of equal parentIdx in a sorted pair list. -/
def groupRuns : List (Nat × Int) → List (Int × Nat × Nat)
  | [] => []
  | x :: xs => groupRunsAux xs x.2 0 1

/-- Entry of mNodeChildren for parent value p (slot p+1 of the array;
slot 0 holds the pseudo-children of parent -1).  Writes happen in run
order with the later run overwriting, exactly as the array stores in
the C loop; the numChildren component is returned (0 for a parent with
no run, matching the zero-initialised NodeChildInfo). -/
def childCountAt (parents : List Int) (p : Int) : Nat :=
  (groupRuns (sortedNodes parents)).foldl
    (fun acc r => if r.1 = p then r.2.2 else acc) 0

/-- Flattened child-id array mNodeChildIds: node indices in sorted order. -/
def nodeChildIds (parents : List Int) : List Nat :=
  (sortedNodes parents).map (fun e => e.1)

/-- Sum of childCount over all real parent nodes 0 .. nodeCount-1
(slots 1 .. nodeCount of mNodeChildren). -/
def sumRealChildCounts (parents : List Int) : Nat :=
  ((List.range parents.length).map (fun (p : Nat) => childCountAt parents (p : Int))).sum

/-- Number of root nodes (parent index -1). -/
def rootCount (parents : List Int) : Nat :=
  (parents.filter (fun p => p == -1)).length

/-- Iterated parent map: parentChain parents k i is the k-fold parent
of node i, or none once a root (negative parent) is passed. -/
def parentChain (parents : List Int) : Nat → Nat → Option Nat
  | 0, i => some i
  | k+1, i =>
    match parentChain parents k i with
    | none => none
    | some j =>
      let p := parents.getD j 0
      if 0 ≤ p then some p.toNat else none

/-- Acyclicity of the parent forest: no node is its own transitive
ancestor.  Cycles in a finite graph have length at most nodeCount, so
the chain length is bounded, keeping the predicate decidable. -/
def nodeForestAcyclic (parents : List Int) : Prop :=
  ∀ i < parents.length, ∀ k < parents.length + 1, 0 < k →
    parentChain parents k i ≠ some i

instance (parents : List Int) : Decidable (nodeForestAcyclic parents) := by
  unfold nodeForestAcyclic; infer_instance

/- ===== LZH decoder (CommonData.h lines 593-637, CommonData.cpp lines 446-707) ===== -/

def BUF_SIZE : Nat := 4096
def LOOK_AHEAD : Nat := 60
def THRESHOLD : Nat := 2
def N_CHAR : Nat := 256 - THRESHOLD + LOOK_AHEAD
def TABLE_SIZE : Nat := N_CHAR * 2 - 1
def ROOT : Nat := TABLE_SIZE - 1
def MAX_FREQ : Nat := 0x8000

/-- Table LZH::D_CODE (CommonData.cpp lines 674-707). -/
def D_CODE : List Nat :=
  [0x00, 0x00, 0x00, 0x00, 0x00, 0x00, 0x00, 0x00,
   0x00, 0x00, 0x00, 0x00, 0x00, 0x00, 0x00, 0x00,
   0x00, 0x00, 0x00, 0x00, 0x00, 0x00, 0x00, 0x00,
   0x00, 0x00, 0x00, 0x00, 0x00, 0x00, 0x00, 0x00,
   0x01, 0x01, 0x01, 0x01, 0x01, 0x01, 0x01, 0x01,
   0x01, 0x01, 0x01, 0x01, 0x01, 0x01, 0x01, 0x01,
   0x02, 0x02, 0x02, 0x02, 0x02, 0x02, 0x02, 0x02,
   0x02, 0x02, 0x02, 0x02, 0x02, 0x02, 0x02, 0x02,
   0x03, 0x03, 0x03, 0x03, 0x03, 0x03, 0x03, 0x03,
   0x03, 0x03, 0x03, 0x03, 0x03, 0x03, 0x03, 0x03,
   0x04, 0x04, 0x04, 0x04, 0x04, 0x04, 0x04, 0x04,
   0x05, 0x05, 0x05, 0x05, 0x05, 0x05, 0x05, 0x05,
   0x06, 0x06, 0x06, 0x06, 0x06, 0x06, 0x06, 0x06,
   0x07, 0x07, 0x07, 0x07, 0x07, 0x07, 0x07, 0x07,
   0x08, 0x08, 0x08, 0x08, 0x08, 0x08, 0x08, 0x08,
   0x09, 0x09, 0x09, 0x09, 0x09, 0x09, 0x09, 0x09,
   0x0A, 0x0A, 0x0A, 0x0A, 0x0A, 0x0A, 0x0A, 0x0A,
   0x0B, 0x0B, 0x0B, 0x0B, 0x0B, 0x0B, 0x0B, 0x0B,
   0x0C, 0x0C, 0x0C, 0x0C, 0x0D, 0x0D, 0x0D, 0x0D,
   0x0E, 0x0E, 0x0E, 0x0E, 0x0F, 0x0F, 0x0F, 0x0F,
   0x10, 0x10, 0x10, 0x10, 0x11, 0x11, 0x11, 0x11,
   0x12, 0x12, 0x12, 0x12, 0x13, 0x13, 0x13, 0x13,
   0x14, 0x14, 0x14, 0x14, 0x15, 0x15, 0x15, 0x15,
   0x16, 0x16, 0x16, 0x16, 0x17, 0x17, 0x17, 0x17,
   0x18, 0x18, 0x19, 0x19, 0x1A, 0x1A, 0x1B, 0x1B,
   0x1C, 0x1C, 0x1D, 0x1D, 0x1E, 0x1E, 0x1F, 0x1F,
   0x20, 0x20, 0x21, 0x21, 0x22, 0x22, 0x23, 0x23,
   0x24, 0x24, 0x25, 0x25, 0x26, 0x26, 0x27, 0x27,
   0x28, 0x28, 0x29, 0x29, 0x2A, 0x2A, 0x2B, 0x2B,
   0x2C, 0x2C, 0x2D, 0x2D, 0x2E, 0x2E, 0x2F, 0x2F,
   0x30, 0x31, 0x32, 0x33, 0x34, 0x35, 0x36, 0x37,
   0x38, 0x39, 0x3A, 0x3B, 0x3C, 0x3D, 0x3E, 0x3F]

/-- Input side of MemRStream as used by the decoder: a byte list and a
cursor. -/
structure InStream where
  data : List Nat
  pos : Nat
deriving DecidableEq

/-- Single byte read from the input MemRStream (the uint8_t instance
of the scalar read template): on failure the byte is left unchanged
and the caller substitutes 0 (CommonData.cpp lines 584-588). -/
def inReadByte (s : InStream) : Nat × Bool × InStream :=
  if s.pos ≥ s.data.length ∨ s.pos + 1 > s.data.length then (0, false, s)
  else (s.data.getD s.pos 0, true, { s with pos := s.pos + 1 })

/-- Output side of MemRStream as used by the decoder: capacity mSize,
cursor mPos, and the list of bytes successfully stored so far. -/
structure OutStream where
  mSize : Nat
  mPos : Nat
  buf : List Nat
deriving DecidableEq

/-- Single byte write into the output MemRStream (the uint8_t instance
of the scalar write template, CommonData.h lines 236-246): fails, and
stores nothing, when the cursor would cross mSize. -/
def writeByte (b : Nat) (s : OutStream) : OutStream :=
  if s.mPos ≥ s.mSize ∨ s.mPos + 1 > s.mSize then s
  else { s with mPos := s.mPos + 1, buf := s.buf ++ [b] }

/-- Pointwise update of an int array modelled as a function. -/
def aset (a : Nat → Nat) (i v : Nat) : Nat → Nat :=
  fun j => if j = i then v else a j

/-- Mutable LZH decoder state: the 16-bit input bit buffer getbuf with
its fill counter getlen, and the Huffman arrays freq, prnt, son
(std::vector of int; all values arising are nonnegative). -/
structure LZHS where
  getbuf : Nat
  getlen : Nat
  freq : Nat → Nat
  prnt : Nat → Nat
  son : Nat → Nat

/-- Model of LZH::start_huff (CommonData.cpp lines 499-525), preceded
by the zero fill of the three freshly assigned vectors. -/
def start_huff : LZHS :=
  let f0 : Nat → Nat := fun _ => 0
  let p0 : Nat → Nat := fun _ => 0
  let s0 : Nat → Nat := fun _ => 0
  let a := (List.range N_CHAR).foldl
    (fun (a : (Nat → Nat) × (Nat → Nat) × (Nat → Nat)) i =>
      let (f, p, s) := a
      (aset f i 1, aset p (i + TABLE_SIZE) i, aset s i ((i + TABLE_SIZE) &&& 0xFFFF)))
    (f0, p0, s0)
  let a := (List.range (TABLE_SIZE - N_CHAR)).foldl
    (fun (a : (Nat → Nat) × (Nat → Nat) × (Nat → Nat)) t =>
      let (f, p, s) := a
      let j := N_CHAR + t
      let i := 2 * t
      let f := aset f j (f i + f (i+1))
      let s := aset s j (i &&& 0xFFFF)
      let p := aset (aset p i j) (i+1) j
      (f, p, s))
    a
  let (f, p, s) := a
  { getbuf := 0, getlen := 0,
    freq := aset f TABLE_SIZE 0xFFFF,
    prnt := aset p ROOT 0,
    son := s }

/-- Model of the while loop of LZH::refill_byte_buf (CommonData.cpp
lines 580-593).  Each pass adds 8 to getlen, so from any getlen the
loop runs at most twice; fuel 3 therefore computes the exact same
function as the C while loop. -/
def refillLoop (fuel : Nat) (st : LZHS) (ios : InStream) : LZHS × InStream :=
  match fuel with
  | 0 => (st, ios)
  | fuel+1 =>
    if st.getlen ≤ 8 then
      let (b, ok, ios) := inReadByte ios
      let byte := if ok then b else 0
      let st := { st with getbuf := (st.getbuf ||| (byte <<< (8 - st.getlen))) &&& 0xFFFF,
                          getlen := st.getlen + 8 }
      refillLoop fuel st ios
    else (st, ios)

def refill_byte_buf (st : LZHS) (ios : InStream) : LZHS × InStream :=
  refillLoop 3 st ios

/-- Model of LZH::get_bit (CommonData.cpp lines 540-548). -/
def get_bit (st : LZHS) (ios : InStream) : Nat × LZHS × InStream :=
  let (st, ios) := refill_byte_buf st ios
  let bit := st.getbuf
  let st := { st with getbuf := (st.getbuf <<< 1) &&& 0xFFFF, getlen := st.getlen - 1 }
  ((bit >>> 15) &&& 1, st, ios)

/-- Model of LZH::get_byte (CommonData.cpp lines 550-558). -/
def get_byte (st : LZHS) (ios : InStream) : Nat × LZHS × InStream :=
  let (st, ios) := refill_byte_buf st ios
  let byte := st.getbuf
  let st := { st with getbuf := (st.getbuf <<< 8) &&& 0xFFFF, getlen := st.getlen - 8 }
  (byte >>> 8, st, ios)

/-- Upward scan while (k > freq[l]) l++ inside LZH::update
(CommonData.cpp line 611).  In the C code the scan is stopped by the
sentinel freq[TABLE_SIZE] = 0xFFFF; the fuel bounds the scan by the
array extent. -/
def findStop (fuel k l : Nat) (freq : Nat → Nat) : Nat :=
  match fuel with
  | 0 => l
  | fuel+1 => if k > freq l then findStop fuel k (l+1) freq else l

/-- Model of memmove(&a[k+1], &a[k], (j-k)*sizeof) in LZH::reconst
(CommonData.cpp lines 652-653): elements k .. j-1 move one slot up. -/
def memShift (a : Nat → Nat) (k j : Nat) : Nat → Nat :=
  fun m => if k + 1 ≤ m ∧ m ≤ j then a (m - 1) else a m

/-- Downward scan while (f < freq[k] && k >= 0) k-- inside LZH::reconst
(CommonData.cpp line 647), with int index k. -/
def reconstDown (fuel : Nat) (f : Nat) (k : Int) (freq : Nat → Nat) : Int :=
  match fuel with
  | 0 => k
  | fuel+1 =>
    if f < (if k < 0 then 0 else freq k.toNat) ∧ k ≥ 0 then
      reconstDown fuel f (k - 1) freq
    else k

/-- Model of LZH::reconst (CommonData.cpp lines 628-672). -/
def reconst (st : LZHS) : LZHS :=
  let a := (List.range TABLE_SIZE).foldl
    (fun (a : (Nat → Nat) × (Nat → Nat) × Nat) i =>
      let (f, s, j) := a
      if st.son i ≥ TABLE_SIZE then
        (aset f j ((st.freq i + 1) >>> 1), aset s j (st.son i), j + 1)
      else (f, s, j))
    (st.freq, st.son, 0)
  let (f1, s1, _) := a
  let b := (List.range (TABLE_SIZE - N_CHAR)).foldl
    (fun (b : (Nat → Nat) × (Nat → Nat) × Nat) t =>
      let (f, s, i) := b
      let j := N_CHAR + t
      let fv := f i + f (i+1)
      let f := aset f j fv
      let k := (reconstDown (j+2) fv ((j : Int) - 1) f) + 1
      let kn := k.toNat
      let f := aset (memShift f kn j) kn fv
      let s := aset (memShift s kn j) kn i
      (f, s, i + 2))
    (f1, s1, 0)
  let (f2, s2, _) := b
  let p2 := (List.range TABLE_SIZE).foldl
    (fun (p : Nat → Nat) i =>
      let k := s2 i
      if k ≥ TABLE_SIZE then aset p k i
      else aset (aset p k i) (k+1) i)
    st.prnt
  { st with freq := f2, son := s2, prnt := p2 }

/-- Body of the do-while of LZH::update (CommonData.cpp lines 603-623),
up to but not including the final c = prnt[c]; returns the updated
arrays and the node index after the optional subtree swap. -/
def updateBody (st : LZHS) (c : Nat) : LZHS × Nat :=
  let freq := aset st.freq c (st.freq c + 1)
  let k := freq c
  if k > freq (c+1) then
    let l := findStop 700 k (c+1) freq - 1
    let freq := aset (aset freq c (freq l)) l k
    let i := st.son c
    let prnt := aset st.prnt i l
    let prnt := if i < TABLE_SIZE then aset prnt (i+1) l else prnt
    let j := st.son l
    let son := aset st.son l (i &&& 0xFFFF)
    let prnt := aset prnt j c
    let prnt := if j < TABLE_SIZE then aset prnt (j+1) c else prnt
    let son := aset son c (j &&& 0xFFFF)
    ({ st with freq := freq, prnt := prnt, son := son }, l)
  else ({ st with freq := freq }, c)

/-- Do-while loop of LZH::update; the walk to the root has depth at
most the tree height, bounded by the fuel. -/
def updateLoop (fuel : Nat) (st : LZHS) (c : Nat) : LZHS :=
  match fuel with
  | 0 => st
  | fuel+1 =>
    let (st, c) := updateBody st c
    let c := st.prnt c
    if c ≠ 0 then updateLoop fuel st c else st

/-- Model of LZH::update (CommonData.cpp lines 595-626). -/
def update (st : LZHS) (c : Nat) : LZHS :=
  let st := if st.freq ROOT = MAX_FREQ then reconst st else st
  updateLoop 700 st (st.prnt (c + TABLE_SIZE))

/-- Tree walk of LZH::decode_char (CommonData.cpp lines 529-534): from
the root child, follow one decoded bit per level until a leaf entry
(son value at least TABLE_SIZE) is met.  In a well formed tree the
depth is below TABLE_SIZE, bounded here by the fuel. -/
def decodeCharLoop (fuel : Nat) (c : Nat) (st : LZHS) (ios : InStream) :
    Nat × LZHS × InStream :=
  match fuel with
  | 0 => (c, st, ios)
  | fuel+1 =>
    if c < TABLE_SIZE then
      let (b, st, ios) := get_bit st ios
      decodeCharLoop fuel (st.son (c + b)) st ios
    else (c, st, ios)

/-- Model of LZH::decode_char (CommonData.cpp lines 527-538). -/
def decode_char (st : LZHS) (ios : InStream) : Nat × LZHS × InStream :=
  let (c, st, ios) := decodeCharLoop 700 (st.son ROOT) st ios
  let c := c - TABLE_SIZE
  let st := update st c
  (c, st, ios)

/-- Model of LZH::decode_dlen (CommonData.h lines 623-631). -/
def decode_dlen (i : Nat) : Nat :=
  if i < 32 then 3
  else if i < 80 then 4
  else if i < 144 then 5
  else if i < 192 then 6
  else if i < 240 then 7
  else 8

/-- Bit refinement loop of LZH::decode_position (CommonData.cpp lines
569-572): n times, i = (i << 1) + get_bit. -/
def decodeDPosLoop (n : Nat) (i : Nat) (st : LZHS) (ios : InStream) :
    Nat × LZHS × InStream :=
  match n with
  | 0 => (i, st, ios)
  | n+1 =>
    let (b, st, ios) := get_bit st ios
    decodeDPosLoop n ((i <<< 1) + b) st ios

/-- Model of LZH::decode_position (CommonData.cpp lines 561-578). -/
def decode_position (st : LZHS) (ios : InStream) : Nat × LZHS × InStream :=
  let (i, st, ios) := get_byte st ios
  let j := decode_dlen i
  let c := (D_CODE.getD i 0) <<< 6
  let j := j - 2
  let (i, st, ios) := decodeDPosLoop j i st ios
  (c ||| (i &&& 0x3F), st, ios)

/-- Copy loop of the back-reference branch of LZH::lzh_unpack
(CommonData.cpp lines 473-482): j bytes are read from the ring buffer
at (i + k) mod BUF_SIZE, written to the output stream and fed back
into the ring buffer at r. -/
def copyRun : Nat → Nat → Nat → Nat → (Nat → Nat) → OutStream →
    OutStream × (Nat → Nat) × Nat
  | 0, _, _, r, tb, outS => (outS, tb, r)
  | jr+1, i, k, r, tb, outS =>
    let c := tb ((i + k) &&& (BUF_SIZE - 1))
    copyRun jr i (k+1) ((r + 1) &&& (BUF_SIZE - 1)) (aset tb r c) (writeByte c outS)

/-- While loop of LZH::lzh_unpack (CommonData.cpp lines 455-484).
Every iteration increases count by at least 1 (a literal adds 1, a
back-reference adds j = c - 255 + THRESHOLD, at least 2), so with fuel
at least textSize - count the fuel never runs out before the loop
condition count < textSize fails; the fuel-driven function then equals
the C while loop.  The ring buffer index of a back-reference is
(r - decode_position - 1) & (BUF_SIZE - 1) on int values, which on the
two-complement machine of the source equals the representative mod
BUF_SIZE.  Returns the final output stream and count. -/
def lzhLoop (fuel : Nat) (textSize : Nat) (st : LZHS) (ios : InStream)
    (outS : OutStream) (tb : Nat → Nat) (r : Nat) (count : Nat) : OutStream × Nat :=
  match fuel with
  | 0 => (outS, count)
  | fuel+1 =>
    if count < textSize then
      let (c, st, ios) := decode_char st ios
      if c < 256 then
        lzhLoop fuel textSize st ios (writeByte c outS) (aset tb r c)
          ((r + 1) &&& (BUF_SIZE - 1)) (count + 1)
      else
        let (p, st, ios) := decode_position st ios
        let i := (((r : Int) - p - 1).emod (BUF_SIZE : Int)).toNat
        let j := c - 255 + THRESHOLD
        let (outS, tb, r) := copyRun j i 0 r tb outS
        lzhLoop fuel textSize st ios outS tb r (count + j)
    else (outS, count)

/-- Model of LZH::lzh_unpack (CommonData.cpp lines 448-485): fresh
Huffman state, ring cursor r = BUF_SIZE - LOOK_AHEAD, zero filled ring
buffer, then the decode loop. -/
def lzh_unpack (text_size : Nat) (ios : InStream) (outS : OutStream) : OutStream × Nat :=
  let st := start_huff
  let r := BUF_SIZE - LOOK_AHEAD
  let tb : Nat → Nat := fun _ => 0
  lzhLoop text_size text_size st ios outS tb r 0

/- ===== Helper lemmas: runCountAt (shared by C6 statement and proofs) ===== -/

/-- Last-wins lookup of the numChildren slot written for parent p by a
run list, matching the array overwrite order of the C loop. -/
def runCountAt (runs : List (Int × Nat × Nat)) (p : Int) : Nat :=
  runs.foldl (fun acc r => if r.1 = p then r.2.2 else acc) 0

/- ===== Helper lemmas: 32-bit mask arithmetic ===== -/

theorem land_top_mask (n k x : Nat) (hx : x < 2 ^ (n + k)) :
    x &&& ((2 ^ n - 1) <<< k) = 2 ^ k * (x / 2 ^ k) := by
  apply Nat.eq_of_testBit_eq
  intro i
  rw [Nat.testBit_and, Nat.testBit_shiftLeft, Nat.testBit_two_pow_sub_one]
  have h2 : 2 ^ k * (x / 2 ^ k) = (x >>> k) <<< k := by
    rw [Nat.shiftRight_eq_div_pow, Nat.shiftLeft_eq]; ring
  rw [h2, Nat.testBit_shiftLeft, Nat.testBit_shiftRight]
  by_cases hk : k ≤ i
  · have hik : k + (i - k) = i := by omega
    by_cases hin : i - k < n
    · simp [hk, hin, hik]
    · have hxb : x.testBit i = false := by
        apply Nat.testBit_lt_two_pow
        calc x < 2 ^ (n + k) := hx
          _ ≤ 2 ^ i := Nat.pow_le_pow_right (by norm_num) (by omega)
      simp [hk, hin, hik, hxb]
  · simp [hk]

theorem and_mask_fffffffc (x : Nat) (hx : x < 4294967296) :
    x &&& 0xFFFFFFFC = 4 * (x / 4) := by
  have hmask : ((2 ^ 30 - 1 : Nat) <<< 2) = 0xFFFFFFFC := by decide
  have h := land_top_mask 30 2 x (by norm_num; omega)
  rw [hmask] at h
  simpa using h

theorem and_mask_fffffffe (x : Nat) (hx : x < 4294967296) :
    x &&& 0xFFFFFFFE = 2 * (x / 2) := by
  have hmask : ((2 ^ 31 - 1 : Nat) <<< 1) = 0xFFFFFFFE := by decide
  have h := land_top_mask 31 1 x (by norm_num; omega)
  rw [hmask] at h
  simpa using h

theorem and_mask_7fffffff (x : Nat) : x &&& 0x7FFFFFFF = x % 2 ^ 31 := by
  have h := Nat.and_pow_two_sub_one_eq_mod x 31
  norm_num at h
  simpa using h

theorem and_bit31_zero_lt (x : Nat) (hx : x < 4294967296)
    (h : x &&& 0x80000000 = 0) : x < 2 ^ 31 := by
  by_contra hge
  have hbit : x.testBit 31 = true := by
    rw [Nat.testBit_to_div_mod]
    simp only [decide_eq_true_eq]
    norm_num at hge ⊢
    omega
  have h2 := Nat.and_two_pow x 31
  rw [hbit] at h2
  norm_num at h2 h
  omega

/- ===== C4 ===== -/

/-- Claim C4 counterexample: calcLookupSize on the quantized type
PALETTE_COLORQUANT returns 0, not 256 + base as the claim states for
quantized types. -/
theorem C4_quantized_counterexample :
    calcLookupSize 16 4 PALETTE_COLORQUANT = 0 ∧
    calcLookupSize 16 4 PALETTE_COLORQUANT ≠ 256 + (256 + 4 * (256 * 4)) := by
  decide

/-- Claim C4 (amended): with base = 256 + 4*256*4, calcLookupSize
returns 256*shadeLevels*(hazeLevels+1) + base for shade-haze,
65536 + base for translucent, additive and subtractive, 256 + base for
no-remap, and 0 (the default switch branch) for every quantized type;
in particular the ShadeHaze scenario with shadeLevels = 16 and
hazeLevels = 4 gives 256*16*5 + base. -/
theorem C4_calcLookupSize (sh hz : Nat) :
    calcLookupSize sh hz PALETTE_SHADEHAZE = 256 * sh * (hz + 1) + (256 + 4 * (256 * 4)) ∧
    calcLookupSize sh hz PALETTE_TRANSLUCENT = 65536 + (256 + 4 * (256 * 4)) ∧
    calcLookupSize sh hz PALETTE_ADDITIVE = 65536 + (256 + 4 * (256 * 4)) ∧
    calcLookupSize sh hz PALETTE_SUBTRACTIVE = 65536 + (256 + 4 * (256 * 4)) ∧
    calcLookupSize sh hz PALETTE_NOREMAP = 256 + (256 + 4 * (256 * 4)) ∧
    calcLookupSize sh hz PALETTE_COLORQUANT = 0 ∧
    calcLookupSize sh hz PALETTE_ALPHAQUANT = 0 ∧
    calcLookupSize sh hz PALETTE_ADDITIVEQUANT = 0 ∧
    calcLookupSize sh hz PALETTE_SUBTRACTIVEQUANT = 0 ∧
    calcLookupSize 16 4 PALETTE_SHADEHAZE = 256 * 16 * 5 + (256 + 4 * (256 * 4)) := by
  refine ⟨?_, ?_, ?_, ?_, ?_, ?_, ?_, ?_, ?_, by decide⟩ <;>
    simp [calcLookupSize, PALETTE_SHADEHAZE, PALETTE_TRANSLUCENT, PALETTE_ADDITIVE,
      PALETTE_SUBTRACTIVE, PALETTE_NOREMAP, PALETTE_COLORQUANT, PALETTE_ALPHAQUANT,
      PALETTE_ADDITIVEQUANT, PALETTE_SUBTRACTIVEQUANT]

/- ===== C7 ===== -/

/-- Claim C7: a PLAYING thread on a non-cyclic sequence of duration 2
at pos 0 advanced by dt = 3 ends STOPPED with pos clamped to 1 (not
1.5), and advanceThreads leaves every STOPPED thread, in particular
its pos, completely unchanged. -/
theorem C7_noncyclic_clamp_stop :
    advanceThreads [⟨false, 2⟩] 3 ⟨0, 0, ThreadState.PLAYING, [], 0⟩ =
      ⟨0, 1, ThreadState.STOPPED, [], 0⟩ ∧
    ∀ (seqs : List SequenceM) (dt : ℚ) (idx : Int) (pos : ℚ) (lks : List Int) (rs : Nat),
      advanceThreads seqs dt ⟨idx, pos, ThreadState.STOPPED, lks, rs⟩ =
        ⟨idx, pos, ThreadState.STOPPED, lks, rs⟩ := by
  refine ⟨?_, ?_⟩
  · simp only [advanceThreads, advanceThreads.advanceThreadsPlaying, List.getD]
    norm_num
  · intro seqs dt idx pos lks rs
    unfold advanceThreads
    split <;> rfl

/- ===== C8 ===== -/

/-- Claim C8 counterexample: the raw block read computes mPos + size
in uint32_t arithmetic, so with pos = 1, mSize = 2 and size =
4294967295 the sum wraps to 0 and the read succeeds even though the
exact sum 4294967296 exceeds mSize. -/
theorem C8_overflow_counterexample :
    (mem_read_raw 1 2 4294967295).1 = true ∧ 1 + 4294967295 > 2 := by
  decide

/-- Claim C8 (amended): whenever the exact sum pos + n exceeds mSize,
the scalar read and the fixed-array read return false (their sums are
computed in size_t, without 32-bit wrap), and the raw block read
returns false provided pos + n also stays below 2^32 (its sum is
uint32_t and can wrap). -/
theorem C8_read_bounds (pos mSize n : Nat) (h : pos + n > mSize) :
    (mem_read_scalar pos mSize n).1 = false ∧
    (∀ es c, es * c = n → (mem_read_array pos mSize es c).1 = false) ∧
    (pos + n < 4294967296 → (mem_read_raw pos mSize n).1 = false) := by
  refine ⟨?_, ?_, ?_⟩
  · unfold mem_read_scalar
    rw [if_pos (Or.inr h)]
  · intro es c hec
    unfold mem_read_array
    rw [if_pos (Or.inr (by omega))]
  · intro hlt
    unfold mem_read_raw
    rw [if_pos (Or.inr (by rw [Nat.mod_eq_of_lt hlt]; omega))]

/-- Claim C8 witness: the amended bounds property at pos = 5,
mSize = 3, n = 1. -/
theorem C8_read_bounds_witness :
    (mem_read_scalar 5 3 1).1 = false ∧
    (mem_read_array 5 3 1 1).1 = false ∧
    (mem_read_raw 5 3 1).1 = false := by
  have h := C8_read_bounds 5 3 1 (by decide)
  exact ⟨h.1, h.2.1 1 1 (by decide), h.2.2 (by decide)⟩

/- ===== C9 ===== -/

/-- Claim C9 counterexample: for tmp = 0x80010000 (VIS bit set, VALID
bit clear) the decoded key is the low 16 bits of tmp masked with
KEYFRAME_KEY_MASK_V2, because the key field is uint16_t; it differs
from tmp &&& KEYFRAME_KEY_MASK_V2 = 0x10000. -/
theorem C9_key_truncation_counterexample :
    (0x80010000 &&& KEYFRAME_VIS_V2 ≠ 0) ∧
    (0x80010000 &&& KEYFRAME_VALID_V2 = 0) ∧
    (decodeKeyframeV2 0x80010000).1 = 0 ∧
    (decodeKeyframeV2 0x80010000).1 ≠ 0x80010000 &&& KEYFRAME_KEY_MASK_V2 := by
  decide

/-- Claim C9 (amended): for every version < 3 packed word tmp with the
VIS bit set and the VALID bit clear, the decoded matIndex contains
both KEYFRAME_VIS and KEYFRAME_VIS_MATTERS (and KEYFRAME_FRAME_MATTERS),
and the decoded key is the value tmp &&& KEYFRAME_KEY_MASK_V2
truncated to the low 16 bits by the uint16_t key field. -/
theorem C9_keyframe_v2 (tmp : Nat) (hvis : tmp &&& KEYFRAME_VIS_V2 ≠ 0)
    (hvalid : tmp &&& KEYFRAME_VALID_V2 = 0) :
    ((decodeKeyframeV2 tmp).2 &&& KEYFRAME_VIS ≠ 0) ∧
    ((decodeKeyframeV2 tmp).2 &&& KEYFRAME_VIS_MATTERS ≠ 0) ∧
    ((decodeKeyframeV2 tmp).2 &&& KEYFRAME_FRAME_MATTERS ≠ 0) ∧
    (decodeKeyframeV2 tmp).1 = (tmp &&& KEYFRAME_KEY_MASK_V2) % 65536 := by
  have h1 : decodeKeyframeV2 tmp =
      ((tmp &&& KEYFRAME_KEY_MASK_V2) % 65536,
       (KEYFRAME_FRAME_MATTERS ||| KEYFRAME_VIS_MATTERS) ||| KEYFRAME_VIS) := by
    simp only [decodeKeyframeV2]
    rw [if_pos hvalid, if_pos hvis]
  rw [h1]
  refine ⟨?_, ?_, ?_, rfl⟩
  · show (KEYFRAME_FRAME_MATTERS ||| KEYFRAME_VIS_MATTERS ||| KEYFRAME_VIS) &&&
      KEYFRAME_VIS ≠ 0
    decide
  · show (KEYFRAME_FRAME_MATTERS ||| KEYFRAME_VIS_MATTERS ||| KEYFRAME_VIS) &&&
      KEYFRAME_VIS_MATTERS ≠ 0
    decide
  · show (KEYFRAME_FRAME_MATTERS ||| KEYFRAME_VIS_MATTERS ||| KEYFRAME_VIS) &&&
      KEYFRAME_FRAME_MATTERS ≠ 0
    decide

/-- Claim C9 witness: the amended property at tmp = 0x80000000. -/
theorem C9_keyframe_v2_witness :
    ((decodeKeyframeV2 0x80000000).2 &&& KEYFRAME_VIS ≠ 0) ∧
    ((decodeKeyframeV2 0x80000000).2 &&& KEYFRAME_VIS_MATTERS ≠ 0) ∧
    (decodeKeyframeV2 0x80000000).1 = (0x80000000 &&& KEYFRAME_KEY_MASK_V2) % 65536 := by
  have h := C9_keyframe_v2 0x80000000 (by decide) (by decide)
  exact ⟨h.1, h.2.1, h.2.2.2⟩

/- ===== C2 ===== -/

/-- Claim C2 counterexample: with dist = 0 the computed size is 1000;
on Details [(0, 5), (1, 50)] the selection loop (condition
size <= threshold) selects index 0, not index 1 as the claim (last
threshold <= size) states. -/
theorem C2_selectDetail_counterexample :
    lodSizeAtNonPositiveDist = 1000 ∧
    selectDetail lodSizeAtNonPositiveDist [(0, 5), (1, 50)] = 0 ∧
    selectDetail lodSizeAtNonPositiveDist [(0, 5), (1, 50)] ≠ 1 := by
  refine ⟨rfl, by decide, by decide⟩

/-- Claim C2 (amended): selectDetail returns the last index in array
order whose size threshold is greater than or equal to the computed
size (condition size <= details[i].size in the source), and 0 when no
index qualifies. -/
theorem C2_selectDetail_last_qualifying (size : ℚ) (details : List (Int × ℚ)) :
    (selectDetail size details = 0 ∧
      ∀ i < details.length, ¬ size ≤ (details.getD i (0, 0)).2) ∨
    (size ≤ (details.getD (selectDetail size details) (0, 0)).2 ∧
      selectDetail size details < details.length ∧
      ∀ j, selectDetail size details < j → j < details.length →
        ¬ size ≤ (details.getD j (0, 0)).2) := by
  unfold selectDetail
  generalize details.length = n
  induction n with
  | zero => exact Or.inl ⟨rfl, by omega⟩
  | succ n ih =>
    rw [List.range_succ, List.foldl_append]
    simp only [List.foldl_cons, List.foldl_nil]
    by_cases hp : size ≤ (details.getD n (0, 0)).2
    · right
      rw [if_pos hp]
      exact ⟨hp, by omega, by omega⟩
    · rw [if_neg hp]
      rcases ih with ⟨h0, hall⟩ | ⟨hq, hlt, hafter⟩
      · left
        refine ⟨h0, ?_⟩
        intro i hi
        rcases Nat.lt_succ_iff_lt_or_eq.mp hi with hi2 | hi2
        · exact hall i hi2
        · rw [hi2]; exact hp
      · right
        refine ⟨hq, by omega, ?_⟩
        intro j hj1 hj2
        rcases Nat.lt_succ_iff_lt_or_eq.mp hj2 with hj3 | hj3
        · exact hafter j hj1 hj3
        · rw [hj3]; exact hp

/-- Claim C2 witness: the amended characterization instantiated at
size = 5 and Details [(0, 10), (1, 3)]. -/
theorem C2_selectDetail_witness :
    (selectDetail 5 [(0, 10), (1, 3)] = 0 ∧
      ∀ i < ([(0, 10), (1, 3)] : List (Int × ℚ)).length,
        ¬ (5 : ℚ) ≤ (([(0, 10), (1, 3)] : List (Int × ℚ)).getD i (0, 0)).2) ∨
    ((5 : ℚ) ≤ (([(0, 10), (1, 3)] : List (Int × ℚ)).getD
        (selectDetail 5 [(0, 10), (1, 3)]) (0, 0)).2 ∧
      selectDetail 5 [(0, 10), (1, 3)] < ([(0, 10), (1, 3)] : List (Int × ℚ)).length ∧
      ∀ j, selectDetail 5 [(0, 10), (1, 3)] < j →
        j < ([(0, 10), (1, 3)] : List (Int × ℚ)).length →
        ¬ (5 : ℚ) ≤ (([(0, 10), (1, 3)] : List (Int × ℚ)).getD j (0, 0)).2) :=
  C2_selectDetail_last_qualifying 5 [(0, 10), (1, 3)]

/- ===== C5 ===== -/

/-- Claim C5 counterexample: for the stored size field 0x80000001 the
alignment bit is set, getSize masks it off and dword-aligns, returning
4, which is far below the raw stored field 0x80000001; so getSize is
not greater than or equal to the raw size field when the high bit is
set. -/
theorem C5_getSize_counterexample :
    IFFBlock_getSize 0x80000001 = 4 ∧
    ¬ (0x80000001 ≤ IFFBlock_getSize 0x80000001) := by
  decide

/-- Claim C5 (amended): for every 32-bit stored size field, getSize is
even and at least the size field with the alignment bit masked off
(size &&& 0x7FFFFFFF); when the alignment bit is clear this masked
value is the field itself, so getSize >= size holds in that case. -/
theorem C5_getSize_even_ge_masked (size : Nat) (h : size < 4294967296) :
    IFFBlock_getSize size % 2 = 0 ∧
    size &&& 0x7FFFFFFF ≤ IFFBlock_getSize size ∧
    (size &&& ALIGN_DWORD = 0 → size ≤ IFFBlock_getSize size) := by
  have hlow : size &&& 0x7FFFFFFF = size % 2 ^ 31 := and_mask_7fffffff size
  unfold IFFBlock_getSize
  by_cases hbit : size &&& ALIGN_DWORD ≠ 0
  · rw [if_pos hbit]
    have hm : size % 2 ^ 31 < 2 ^ 31 := Nat.mod_lt _ (by norm_num)
    have hmod : (size &&& 0x7FFFFFFF) + 3 < 4294967296 := by
      rw [hlow]; norm_num at hm ⊢; omega
    rw [Nat.mod_eq_of_lt hmod, and_mask_fffffffc _ hmod]
    have hdm := Nat.div_add_mod ((size &&& 0x7FFFFFFF) + 3) 4
    have hr : ((size &&& 0x7FFFFFFF) + 3) % 4 < 4 := Nat.mod_lt _ (by norm_num)
    refine ⟨by omega, by omega, fun hz => absurd hz hbit⟩
  · rw [if_neg hbit]
    push_neg at hbit
    have hsz : size < 2 ^ 31 := and_bit31_zero_lt size h (by
      have : ALIGN_DWORD = 0x80000000 := rfl
      rw [← this]; exact hbit)
    have hmod : size + 1 < 4294967296 := by norm_num at hsz ⊢; omega
    rw [Nat.mod_eq_of_lt hmod, and_mask_fffffffe _ hmod]
    have hdm := Nat.div_add_mod (size + 1) 2
    have hr : (size + 1) % 2 < 2 := Nat.mod_lt _ (by norm_num)
    have hmask : size &&& 0x7FFFFFFF = size := by
      rw [hlow]; exact Nat.mod_eq_of_lt hsz
    refine ⟨by omega, by omega, fun _ => by omega⟩

/-- Claim C5 witness: the amended property at size = 5 (alignment bit
clear): getSize 5 = 6, even and at least 5. -/
theorem C5_getSize_witness :
    IFFBlock_getSize 5 % 2 = 0 ∧
    5 &&& 0x7FFFFFFF ≤ IFFBlock_getSize 5 ∧
    (5 &&& ALIGN_DWORD = 0 → 5 ≤ IFFBlock_getSize 5) :=
  C5_getSize_even_ge_masked 5 (by decide)

/- ===== C3 ===== -/

/-- Evaluation of one advanceThreads call on a PLAYING thread over the
single cyclic sequence of duration 2: the position advances by dt / 2,
wrapping (with a cache reset) exactly when it passes 1. -/
theorem advanceThreads_cyclic2_step (d : ℚ) (sp : ℚ) (slk : List Int) (sr : Nat) :
    advanceThreads [⟨true, 2⟩] d ⟨0, sp, ThreadState.PLAYING, slk, sr⟩ =
      if sp + d / 2 > 1 then
        ⟨0, sp + d / 2 - 1, ThreadState.PLAYING, slk.map (fun _ => -1), sr + 1⟩
      else
        ⟨0, sp + d / 2, ThreadState.PLAYING, slk, sr⟩ := by
  simp only [advanceThreads, advanceThreads.advanceThreadsPlaying, List.getD]
  norm_num

/-- Invariant of repeated advanceThreads calls on the cyclic duration-2
sequence: writing u for the accumulated dt, as long as u stays at most
4 the thread has wrapped either zero times (pos = u/2, u at most 2) or
exactly once (pos = u/2 - 1, u above 2); a second wrap would need
u above 4. -/
theorem advanceRun_cyclic2_inv (dts : List ℚ) :
    ∀ (u : ℚ) (r0 : Nat) (s : AnimState),
      (∀ d ∈ dts, 0 ≤ d) → 0 ≤ u → u + dts.sum ≤ 4 →
      s.sequenceIdx = 0 → s.state = ThreadState.PLAYING →
      ((s.resets = r0 ∧ s.pos = u / 2 ∧ u ≤ 2) ∨
       (s.resets = r0 + 1 ∧ s.pos = u / 2 - 1 ∧ 2 < u)) →
      (advanceRun [⟨true, 2⟩] dts s).sequenceIdx = 0 ∧
      (advanceRun [⟨true, 2⟩] dts s).state = ThreadState.PLAYING ∧
      (((advanceRun [⟨true, 2⟩] dts s).resets = r0 ∧
        (advanceRun [⟨true, 2⟩] dts s).pos = (u + dts.sum) / 2 ∧ u + dts.sum ≤ 2) ∨
       ((advanceRun [⟨true, 2⟩] dts s).resets = r0 + 1 ∧
        (advanceRun [⟨true, 2⟩] dts s).pos = (u + dts.sum) / 2 - 1 ∧ 2 < u + dts.sum)) := by
  induction dts with
  | nil =>
    intro u r0 s hd hu hsum hseq hst hinv
    simp only [advanceRun, List.foldl_nil, List.sum_nil, add_zero]
    exact ⟨hseq, hst, hinv⟩
  | cons d rest ih =>
    intro u r0 s hd hu hsum hseq hst hinv
    obtain ⟨si, sp, sst, slk, sr⟩ := s
    subst hseq; subst hst
    have hd0 : (0 : ℚ) ≤ d := hd d (by simp)
    have hrest : ∀ x ∈ rest, (0 : ℚ) ≤ x := fun x hx => hd x (by simp [hx])
    have hrsum : (0 : ℚ) ≤ rest.sum := List.sum_nonneg hrest
    have hsums : u + (d :: rest).sum = (u + d) + rest.sum := by
      simp [List.sum_cons]; ring
    rw [hsums] at hsum ⊢
    have hstep := advanceThreads_cyclic2_step d sp slk sr
    simp only [advanceRun, List.foldl_cons] at *
    rw [hstep]
    by_cases hgt : sp + d / 2 > 1
    · rw [if_pos hgt]
      rcases hinv with ⟨hr, hp, hle⟩ | ⟨hr, hp, hlt⟩
      · subst hp
        have h2 : 2 < u + d := by nlinarith
        exact ih (u + d) r0 ⟨0, u / 2 + d / 2 - 1, ThreadState.PLAYING,
            slk.map (fun _ => -1), sr + 1⟩
          hrest (by linarith) hsum rfl rfl
          (Or.inr ⟨show sr + 1 = r0 + 1 by omega,
            show u / 2 + d / 2 - 1 = (u + d) / 2 - 1 by ring, h2⟩)
      · subst hp
        have hcon : u + d > 4 := by nlinarith
        linarith [hrsum, hsum]
    · rw [if_neg hgt]
      push_neg at hgt
      rcases hinv with ⟨hr, hp, hle⟩ | ⟨hr, hp, hlt⟩
      · subst hp
        have hle2 : u + d ≤ 2 := by nlinarith
        exact ih (u + d) r0 ⟨0, u / 2 + d / 2, ThreadState.PLAYING, slk, sr⟩
          hrest (by linarith) hsum rfl rfl
          (Or.inl ⟨hr, show u / 2 + d / 2 = (u + d) / 2 by ring, hle2⟩)
      · subst hp
        exact ih (u + d) r0 ⟨0, u / 2 - 1 + d / 2, ThreadState.PLAYING, slk, sr⟩
          hrest (by linarith) hsum rfl rfl
          (Or.inr ⟨hr, show u / 2 - 1 + d / 2 = (u + d) / 2 - 1 by ring, by linarith⟩)

/-- Claim C3 counterexample: a single advanceThreads(4.0) call on a
PLAYING thread over the cyclic duration-2 sequence (dt summing to
2*D = 4) leaves pos at 1.0, not 0, and resets the caches only once,
not at least twice: the wrap subtracts exactly 1 from pos = 2 and the
strict comparison pos > 1 never fires again. -/
theorem C3_wrap_counterexample :
    (advanceRun [⟨true, 2⟩] [4] ⟨0, 0, ThreadState.PLAYING, [0, 0], 0⟩).pos ≠ 0 ∧
    (advanceRun [⟨true, 2⟩] [4] ⟨0, 0, ThreadState.PLAYING, [0, 0], 0⟩).resets < 2 ∧
    ([(4 : ℚ)]).sum = 2 * 2 := by
  have h : advanceRun [⟨true, 2⟩] [4] ⟨0, 0, ThreadState.PLAYING, [0, 0], 0⟩ =
      ⟨0, 1, ThreadState.PLAYING, [-1, -1], 1⟩ := by
    simp only [advanceRun, List.foldl_cons, List.foldl_nil]
    rw [advanceThreads_cyclic2_step]
    norm_num
  rw [h]
  norm_num

/-- Claim C3 (amended): for a PLAYING thread on the cyclic sequence of
duration D = 2 starting at pos = 0, after any sequence of nonnegative
advanceThreads(dt) calls whose dt values sum to exactly 2*D the thread
pos is 1.0 (not 0) and the cached last-keyframe indices have been
reset exactly once (not at least twice); the thread stays PLAYING. -/
theorem C3_cyclic_wrap (dts : List ℚ) (lks : List Int)
    (hd : ∀ d ∈ dts, 0 ≤ d) (hsum : dts.sum = 2 * 2) :
    (advanceRun [⟨true, 2⟩] dts ⟨0, 0, ThreadState.PLAYING, lks, 0⟩).pos = 1 ∧
    (advanceRun [⟨true, 2⟩] dts ⟨0, 0, ThreadState.PLAYING, lks, 0⟩).resets = 1 ∧
    (advanceRun [⟨true, 2⟩] dts ⟨0, 0, ThreadState.PLAYING, lks, 0⟩).state =
      ThreadState.PLAYING := by
  have h := advanceRun_cyclic2_inv dts 0 0 ⟨0, 0, ThreadState.PLAYING, lks, 0⟩ hd le_rfl
    (by rw [hsum]; norm_num) rfl rfl (Or.inl ⟨rfl, by norm_num, by norm_num⟩)
  rw [hsum] at h
  rcases h with ⟨hseq, hstate, ⟨hr, hp, hle⟩ | ⟨hr, hp, hlt⟩⟩
  · norm_num at hle
  · refine ⟨?_, ?_, hstate⟩
    · rw [hp]; norm_num
    · rw [hr]

/-- Claim C3 witness: the amended wrap property at the call list [4]
with one cached index. -/
theorem C3_cyclic_wrap_witness :
    (advanceRun [⟨true, 2⟩] [4] ⟨0, 0, ThreadState.PLAYING, [0], 0⟩).pos = 1 ∧
    (advanceRun [⟨true, 2⟩] [4] ⟨0, 0, ThreadState.PLAYING, [0], 0⟩).resets = 1 ∧
    (advanceRun [⟨true, 2⟩] [4] ⟨0, 0, ThreadState.PLAYING, [0], 0⟩).state =
      ThreadState.PLAYING :=
  C3_cyclic_wrap [4] [0] (by intro d hd; rw [List.mem_singleton] at hd; rw [hd]; norm_num)
    (by norm_num)

/- ===== C10 ===== -/

/-- Refilling the bit buffer preserves the uint16_t bound on getbuf:
every loop pass masks with 0xFFFF. -/
theorem refillLoop_getbuf_lt (fuel : Nat) : ∀ (st : LZHS) (ios : InStream),
    st.getbuf < 65536 → ((refillLoop fuel st ios).1).getbuf < 65536 := by
  induction fuel with
  | zero => intro st ios h; exact h
  | succ fuel ih =>
    intro st ios h
    unfold refillLoop
    by_cases hc : st.getlen ≤ 8
    · rw [if_pos hc]
      rcases hre : inReadByte ios with ⟨b, ok, ios2⟩
      apply ih
      show (st.getbuf ||| ((if ok = true then b else 0) <<< (8 - st.getlen))) &&& 0xFFFF < 65536
      have := Nat.and_le_right
        (n := st.getbuf ||| ((if ok = true then b else 0) <<< (8 - st.getlen))) (m := 0xFFFF)
      omega
    · rw [if_neg hc]
      exact h

/-- get_byte returns a value below 256 whenever getbuf respects its
uint16_t bound. -/
theorem get_byte_lt (st : LZHS) (ios : InStream) (h : st.getbuf < 65536) :
    (get_byte st ios).1 < 256 := by
  unfold get_byte
  rcases hre : refill_byte_buf st ios with ⟨st2, ios2⟩
  have h2 : st2.getbuf < 65536 := by
    have h3 := refillLoop_getbuf_lt 3 st ios h
    unfold refill_byte_buf at hre
    rw [hre] at h3
    exact h3
  show st2.getbuf >>> 8 < 256
  have h4 := Nat.shiftRight_eq_div_pow st2.getbuf 8
  norm_num at h4
  omega

set_option maxRecDepth 10000 in
/-- Every D_CODE entry is at most 0x3F (checked over the whole table);
out of range lookups return the getD default 0. -/
theorem D_CODE_le (i : Nat) : D_CODE.getD i 0 ≤ 63 := by
  by_cases hlt : i < D_CODE.length
  · rw [List.getD_eq_getElem D_CODE 0 hlt]
    have hmem : D_CODE[i] ∈ D_CODE := List.getElem_mem hlt
    have hall : ∀ x ∈ D_CODE, x ≤ 63 := by decide
    exact hall _ hmem
  · rw [List.getD_eq_default D_CODE 0 (by omega)]
    omega

/-- decode_position returns D_CODE[i] shifted left 6 bits or-combined
with only the low 6 bits of the refined value, so the result stays
below 64*64 = 4096. -/
theorem decode_position_lt (st : LZHS) (ios : InStream) (h : st.getbuf < 65536) :
    (decode_position st ios).1 < BUF_SIZE := by
  have _hgb := get_byte_lt st ios h
  unfold decode_position
  rcases hgb : get_byte st ios with ⟨i, st2, ios2⟩
  show D_CODE.getD i 0 <<< 6 |||
    ((decodeDPosLoop (decode_dlen i - 2) i st2 ios2).1 &&& 0x3F) < 4096
  have hc : D_CODE.getD i 0 <<< 6 ≤ 63 * 64 := by
    rw [Nat.shiftLeft_eq]
    have hle := D_CODE_le i
    have h64 : (2 : Nat) ^ 6 = 64 := by norm_num
    rw [h64]
    omega
  have h1 : D_CODE.getD i 0 <<< 6 < 2 ^ 12 :=
    lt_of_le_of_lt hc (by norm_num)
  have h2 : (decodeDPosLoop (decode_dlen i - 2) i st2 ios2).1 &&& 0x3F < 2 ^ 12 :=
    lt_of_le_of_lt Nat.and_le_right (by norm_num)
  have hor := Nat.or_lt_two_pow h1 h2
  rw [show (2 : Nat) ^ 12 = 4096 from by norm_num] at hor
  exact hor

/-- Claim C10: for every input stream state and every bit-buffer state
respecting the uint16_t bound on getbuf, decode_position returns a
value in [0, 4095], strictly below the ring-buffer size 4096, because
every D_CODE entry is at most 0x3F and the result combines
D_CODE[byte] shifted left 6 with only the low 6 bits of the refined
value; consequently the ring-buffer index
(r - decode_position - 1) & (BUF_SIZE - 1) computed by lzh_unpack
(as the two-complement int representative mod BUF_SIZE) always lies
inside the 4096-entry window. -/
theorem C10_decode_position_range (st : LZHS) (ios : InStream)
    (h : st.getbuf < 65536) :
    (decode_position st ios).1 < BUF_SIZE ∧
    ∀ r : Nat,
      (((r : Int) - ((decode_position st ios).1 : Int) - 1).emod (BUF_SIZE : Int)).toNat
        < BUF_SIZE := by
  refine ⟨decode_position_lt st ios h, ?_⟩
  intro r
  show (((r : Int) - ((decode_position st ios).1 : Int) - 1).emod (4096 : Int)).toNat < 4096
  have h1 : 0 ≤ ((r : Int) - ((decode_position st ios).1 : Int) - 1).emod (4096 : Int) :=
    Int.emod_nonneg _ (by norm_num)
  have h2 : ((r : Int) - ((decode_position st ios).1 : Int) - 1).emod (4096 : Int) <
      (4096 : Int) := Int.emod_lt_of_pos _ (by norm_num)
  omega

/-- Claim C10 witness: the range property at the fresh bit-buffer
state over the empty input, with ring cursor r = 5. -/
theorem C10_decode_position_range_witness :
    (decode_position ⟨0, 0, fun _ => 0, fun _ => 0, fun _ => 0⟩ ⟨[], 0⟩).1 < BUF_SIZE ∧
    ((((5 : Nat) : Int) -
        ((decode_position ⟨0, 0, fun _ => 0, fun _ => 0, fun _ => 0⟩ ⟨[], 0⟩).1 : Int) - 1).emod
      (BUF_SIZE : Int)).toNat < BUF_SIZE := by
  have h := C10_decode_position_range ⟨0, 0, fun _ => 0, fun _ => 0, fun _ => 0⟩ ⟨[], 0⟩
    (by decide)
  exact ⟨h.1, h.2 5⟩

/- ===== C1 ===== -/

/-- Writing never changes the capacity of the output stream. -/
theorem writeByte_mSize (b : Nat) (s : OutStream) : (writeByte b s).mSize = s.mSize := by
  unfold writeByte
  split <;> rfl

/-- Single write step: if mPos = min mSize k (k write attempts so far)
then after one more attempt mPos = min mSize (k+1), and the stored
byte list length tracks mPos. -/
theorem writeByte_step (b : Nat) (s : OutStream) (k : Nat)
    (h1 : s.mPos = min s.mSize k) (h2 : s.buf.length = s.mPos) :
    (writeByte b s).mPos = min s.mSize (k + 1) ∧
    (writeByte b s).buf.length = (writeByte b s).mPos := by
  unfold writeByte
  by_cases hc : s.mPos ≥ s.mSize ∨ s.mPos + 1 > s.mSize
  · rw [if_pos hc]
    refine ⟨by omega, h2⟩
  · rw [if_neg hc]
    push_neg at hc
    refine ⟨show s.mPos + 1 = min s.mSize (k + 1) by omega,
            show (s.buf ++ [b]).length = s.mPos + 1 by
              rw [List.length_append, h2]; rfl⟩

/-- The back-reference copy loop performs exactly j write attempts. -/
theorem copyRun_inv (j : Nat) : ∀ (i k r : Nat) (tb : Nat → Nat) (outS : OutStream) (m : Nat),
    outS.mPos = min outS.mSize m → outS.buf.length = outS.mPos →
    ((copyRun j i k r tb outS).1.mSize = outS.mSize ∧
     (copyRun j i k r tb outS).1.mPos = min outS.mSize (m + j) ∧
     (copyRun j i k r tb outS).1.buf.length = (copyRun j i k r tb outS).1.mPos) := by
  induction j with
  | zero =>
    intro i k r tb outS m h1 h2
    exact ⟨rfl, by simpa using h1, h2⟩
  | succ j ih =>
    intro i k r tb outS m h1 h2
    have hw := writeByte_step (tb ((i + k) &&& (BUF_SIZE - 1))) outS m h1 h2
    have hms := writeByte_mSize (tb ((i + k) &&& (BUF_SIZE - 1))) outS
    have hrec := ih i (k+1) ((r + 1) &&& (BUF_SIZE - 1))
      (aset tb r (tb ((i + k) &&& (BUF_SIZE - 1))))
      (writeByte (tb ((i + k) &&& (BUF_SIZE - 1))) outS) (m + 1)
      (by rw [hms]; exact hw.1) hw.2
    unfold copyRun
    refine ⟨by rw [hrec.1, hms], by rw [hrec.2.1, hms]; congr 1; omega, hrec.2.2⟩

set_option maxRecDepth 10000 in
/-- Main loop invariant: the decode loop performs one write attempt
per count increment, so the output cursor is min(capacity, count)
throughout; the loop runs until count reaches textSize (each
iteration adds at least 1 to count, so fuel = textSize suffices). -/
theorem lzhLoop_inv (fuel : Nat) : ∀ (textSize : Nat) (st : LZHS) (ios : InStream)
    (outS : OutStream) (tb : Nat → Nat) (r count : Nat),
    outS.mPos = min outS.mSize count → outS.buf.length = outS.mPos →
    ((lzhLoop fuel textSize st ios outS tb r count).1.mSize = outS.mSize ∧
     (lzhLoop fuel textSize st ios outS tb r count).1.mPos =
       min outS.mSize (lzhLoop fuel textSize st ios outS tb r count).2 ∧
     (lzhLoop fuel textSize st ios outS tb r count).1.buf.length =
       (lzhLoop fuel textSize st ios outS tb r count).1.mPos ∧
     min (count + fuel) textSize ≤ (lzhLoop fuel textSize st ios outS tb r count).2) := by
  induction fuel with
  | zero =>
    intro textSize st ios outS tb r count h1 h2
    refine ⟨rfl, ?_, h2, ?_⟩
    · show outS.mPos = min outS.mSize count
      exact h1
    · show min (count + 0) textSize ≤ count
      omega
  | succ fuel ih =>
    intro textSize st ios outS tb r count h1 h2
    by_cases hlt : count < textSize
    · rcases hdc : decode_char st ios with ⟨c, st2, ios2⟩
      by_cases hc : c < 256
      · have heq : lzhLoop (fuel+1) textSize st ios outS tb r count =
            lzhLoop fuel textSize st2 ios2 (writeByte c outS) (aset tb r c)
              ((r + 1) &&& (BUF_SIZE - 1)) (count + 1) := by
          show (if count < textSize then _ else _) = _
          rw [if_pos hlt, hdc]
          show (if c < 256 then _ else _) = _
          rw [if_pos hc]
        rw [heq]
        have hw := writeByte_step c outS count h1 h2
        have hms := writeByte_mSize c outS
        have hrec := ih textSize st2 ios2 (writeByte c outS) (aset tb r c)
          ((r + 1) &&& (BUF_SIZE - 1)) (count + 1) (by rw [hms]; exact hw.1) hw.2
        refine ⟨by rw [hrec.1, hms], by rw [hrec.2.1, hms], hrec.2.2.1, ?_⟩
        have h5 := hrec.2.2.2
        omega
      · rcases hdp : decode_position st2 ios2 with ⟨p, st3, ios3⟩
        rcases hcr : copyRun (c - 255 + THRESHOLD)
            ((((r : Int) - p - 1).emod (BUF_SIZE : Int)).toNat) 0 r tb outS
          with ⟨outS2, tb2, r2⟩
        have heq : lzhLoop (fuel+1) textSize st ios outS tb r count =
            lzhLoop fuel textSize st3 ios3 outS2 tb2 r2 (count + (c - 255 + THRESHOLD)) := by
          show (if count < textSize then _ else _) = _
          rw [if_pos hlt, hdc]
          show (if c < 256 then _ else _) = _
          rw [if_neg hc, hdp]
          show lzhLoop fuel textSize st3 ios3
              (copyRun (c - 255 + THRESHOLD)
                ((((r : Int) - p - 1).emod (BUF_SIZE : Int)).toNat) 0 r tb outS).1
              (copyRun (c - 255 + THRESHOLD)
                ((((r : Int) - p - 1).emod (BUF_SIZE : Int)).toNat) 0 r tb outS).2.1
              (copyRun (c - 255 + THRESHOLD)
                ((((r : Int) - p - 1).emod (BUF_SIZE : Int)).toNat) 0 r tb outS).2.2
              (count + (c - 255 + THRESHOLD)) = _
          rw [hcr]
        rw [heq]
        have hcinv := copyRun_inv (c - 255 + THRESHOLD)
          ((((r : Int) - p - 1).emod (BUF_SIZE : Int)).toNat) 0 r tb outS count h1 h2
        rw [hcr] at hcinv
        have hrec := ih textSize st3 ios3 outS2 tb2 r2 (count + (c - 255 + THRESHOLD))
          (by rw [hcinv.1]; exact hcinv.2.1) hcinv.2.2
        refine ⟨by rw [hrec.1, hcinv.1], by rw [hrec.2.1, hcinv.1], hrec.2.2.1, ?_⟩
        have h5 := hrec.2.2.2
        have h6 : 2 ≤ c - 255 + THRESHOLD := by
          have hthr : THRESHOLD = 2 := rfl
          omega
        omega
    · have heq : lzhLoop (fuel+1) textSize st ios outS tb r count = (outS, count) := by
        show (if count < textSize then _ else _) = _
        rw [if_neg hlt]
      rw [heq]
      refine ⟨rfl, h1, h2, by omega⟩

/-- Claim C1 (amended): the decode loop terminates with an output
count of at least text_size, and an output stream whose capacity is
exactly text_size (as the TerrainBlock caller allocates) ends with
exactly text_size stored bytes; but the count can exceed text_size
when the final symbol is a back-reference, since the copy loop emits
all of its bytes without checking count against text_size
(counterexample below). -/
theorem C1_unpack_exact_when_capacity (textSize : Nat) (ios : InStream) :
    (lzh_unpack textSize ios ⟨textSize, 0, []⟩).1.mPos = textSize ∧
    (lzh_unpack textSize ios ⟨textSize, 0, []⟩).1.buf.length = textSize ∧
    textSize ≤ (lzh_unpack textSize ios ⟨textSize, 0, []⟩).2 := by
  have h := lzhLoop_inv textSize textSize start_huff ios ⟨textSize, 0, []⟩
    (fun _ => 0) (BUF_SIZE - LOOK_AHEAD) 0 (by simp) rfl
  obtain ⟨hm, hp, hb, hge⟩ := h
  show (lzhLoop textSize textSize start_huff ios ⟨textSize, 0, []⟩
        (fun _ => 0) (BUF_SIZE - LOOK_AHEAD) 0).1.mPos = textSize ∧
      (lzhLoop textSize textSize start_huff ios ⟨textSize, 0, []⟩
        (fun _ => 0) (BUF_SIZE - LOOK_AHEAD) 0).1.buf.length = textSize ∧
      textSize ≤ (lzhLoop textSize textSize start_huff ios ⟨textSize, 0, []⟩
        (fun _ => 0) (BUF_SIZE - LOOK_AHEAD) 0).2
  have hge2 : textSize ≤ (lzhLoop textSize textSize start_huff ios ⟨textSize, 0, []⟩
      (fun _ => 0) (BUF_SIZE - LOOK_AHEAD) 0).2 := by simpa using hge
  have hp2 : (lzhLoop textSize textSize start_huff ios ⟨textSize, 0, []⟩
      (fun _ => 0) (BUF_SIZE - LOOK_AHEAD) 0).1.mPos = textSize := by
    rw [hp]; exact min_eq_left hge2
  exact ⟨hp2, by rw [hb, hp2], hge2⟩

set_option maxRecDepth 100000 in
set_option maxHeartbeats 4000000 in
/-- Claim C1 counterexample: with text_size = 1 and the single input
byte 0x8C, the first decoded symbol is the back-reference 256 (length
3), and the decode loop emits all 3 bytes: an output stream with spare
capacity (here 16) receives 3 bytes, not exactly 1, and the loop count
ends at 3.  So lzh_unpack does not stop after producing the
text_size-th byte. -/
theorem C1_overrun_counterexample :
    (lzh_unpack 1 ⟨[0x8C], 0⟩ ⟨16, 0, []⟩).1.buf = [0, 0, 0] ∧
    (lzh_unpack 1 ⟨[0x8C], 0⟩ ⟨16, 0, []⟩).1.buf.length ≠ 1 := by
  have h : (lzh_unpack 1 ⟨[0x8C], 0⟩ ⟨16, 0, []⟩).1.buf = [0, 0, 0] := by decide
  exact ⟨h, by rw [h]; decide⟩

/- ===== C6 ===== -/

theorem filter_len_cons_pos {α : Type} (q : α → Bool) (x : α) (l : List α) (h : q x = true) :
    (List.filter q (x :: l)).length = 1 + (List.filter q l).length := by
  rw [List.filter_cons, if_pos h, List.length_cons]
  omega

theorem filter_len_cons_neg {α : Type} (q : α → Bool) (x : α) (l : List α) (h : q x = false) :
    (List.filter q (x :: l)).length = (List.filter q l).length := by
  rw [List.filter_cons, if_neg (by rw [h]; exact Bool.false_ne_true)]

/-- A run list none of whose parents equal p leaves the last-wins fold
at its initial value. -/
theorem foldl_runCount_skip (p : Int) : ∀ (rs : List (Int × Nat × Nat)) (a : Nat),
    (∀ r ∈ rs, r.1 ≠ p) →
    rs.foldl (fun acc r => if r.1 = p then r.2.2 else acc) a = a := by
  intro rs
  induction rs with
  | nil => intro a _; rfl
  | cons r rs ih =>
    intro a h
    simp only [List.foldl_cons]
    rw [if_neg (h r (by simp))]
    exact ih a (fun x hx => h x (by simp [hx]))

/-- Every run produced by the grouping loop carries either the current
parent or a parent value occurring in the remaining pair list. -/
theorem groupRunsAux_parent_mem : ∀ (ys : List (Nat × Int)) (c : Int) (s k : Nat)
    (r : Int × Nat × Nat), r ∈ groupRunsAux ys c s k →
    r.1 = c ∨ r.1 ∈ ys.map (fun e => e.2) := by
  intro ys
  induction ys with
  | nil =>
    intro c s k r hr
    simp only [groupRunsAux, List.mem_singleton] at hr
    left; rw [hr]
  | cons y ys ih =>
    intro c s k r hr
    simp only [groupRunsAux] at hr
    by_cases hy : y.2 = c
    · rw [if_pos hy] at hr
      rcases ih c s (k+1) r hr with h | h
      · exact Or.inl h
      · right; simp only [List.map_cons, List.mem_cons]; exact Or.inr h
    · rw [if_neg hy] at hr
      rcases List.mem_cons.mp hr with h | h
      · left; rw [h]
      · rcases ih y.2 (s + k) 1 r h with h2 | h2
        · right; simp only [List.map_cons, List.mem_cons]; exact Or.inl h2
        · right; simp only [List.map_cons, List.mem_cons]; exact Or.inr h2

/-- Counting lemma for the grouping loop over a parent-sorted pair
list: the numChildren slot recorded for parent p is the number of
occurrences of p, the open run included. -/
theorem groupRunsAux_count (p : Int) : ∀ (ys : List (Nat × Int)) (c : Int) (s k : Nat),
    List.Pairwise (fun a b : Nat × Int => a.2 ≤ b.2) ys →
    (∀ y ∈ ys, c ≤ y.2) →
    runCountAt (groupRunsAux ys c s k) p =
      (if p = c then k else 0) + (ys.filter (fun y => y.2 == p)).length := by
  intro ys
  induction ys with
  | nil =>
    intro c s k _ _
    show (if c = p then k else 0) = (if p = c then k else 0) + 0
    by_cases h : p = c
    · rw [if_pos h (t := k) (e := 0), if_pos h.symm]; omega
    · rw [if_neg h (t := k) (e := 0), if_neg (fun hh : c = p => h hh.symm)]
  | cons y ys ih =>
    intro c s k hpw hge
    have hpw2 : List.Pairwise (fun a b : Nat × Int => a.2 ≤ b.2) ys :=
      hpw.of_cons
    have hy_le : ∀ z ∈ ys, y.2 ≤ z.2 := fun z hz => List.rel_of_pairwise_cons hpw hz
    simp only [groupRunsAux]
    by_cases hy : y.2 = c
    · rw [if_pos hy]
      have hge2 : ∀ z ∈ ys, c ≤ z.2 := fun z hz => by
        rw [← hy]; exact hy_le z hz
      rw [ih c s (k+1) hpw2 hge2]
      by_cases hp : p = c
      · rw [if_pos hp (t := k + 1) (e := 0), if_pos hp (t := k) (e := 0)]
        rw [filter_len_cons_pos (fun z : Nat × Int => z.2 == p) y ys
          (by simp [hy, hp] : (y.2 == p) = true)]
        omega
      · rw [if_neg hp (t := k + 1) (e := 0), if_neg hp (t := k) (e := 0)]
        rw [filter_len_cons_neg (fun z : Nat × Int => z.2 == p) y ys (by
          simp only [beq_eq_false_iff_ne, ne_eq, hy]
          exact fun hh : c = p => hp hh.symm)]
    · rw [if_neg hy]
      have hcy : c < y.2 := lt_of_le_of_ne (hge y (by simp)) (fun hh : c = y.2 => hy hh.symm)
      by_cases hp : p = c
      · subst hp
        have hskip : ∀ r ∈ groupRunsAux ys y.2 (s + k) 1, r.1 ≠ p := by
          intro r hr
          rcases groupRunsAux_parent_mem ys y.2 (s + k) 1 r hr with h2 | h2
          · rw [h2]; omega
          · rw [List.mem_map] at h2
            obtain ⟨z, hz, hz2⟩ := h2
            have h3 := hy_le z hz
            rw [← hz2]
            omega
        have hfil : (List.filter (fun z : Nat × Int => z.2 == p) (y :: ys)).length = 0 := by
          rw [List.length_eq_zero, List.filter_eq_nil_iff]
          intro z hz
          simp only [beq_iff_eq]
          rcases List.mem_cons.mp hz with h2 | h2
          · rw [h2]; omega
          · have h3 := hy_le z h2
            omega
        show runCountAt ((p, s, k) :: groupRunsAux ys y.2 (s + k) 1) p =
          (if p = p then k else 0) +
            (List.filter (fun z : Nat × Int => z.2 == p) (y :: ys)).length
        rw [hfil]
        show List.foldl (fun acc r => if r.1 = p then r.2.2 else acc)
            (if p = p then k else 0) (groupRunsAux ys y.2 (s + k) 1) =
          (if p = p then k else 0) + 0
        rw [if_pos rfl (t := k) (e := 0)]
        rw [foldl_runCount_skip p _ k hskip]
        omega
      · show runCountAt ((c, s, k) :: groupRunsAux ys y.2 (s + k) 1) p =
          (if p = c then k else 0) +
            (List.filter (fun z : Nat × Int => z.2 == p) (y :: ys)).length
        rw [if_neg hp (t := k) (e := 0)]
        show List.foldl (fun acc r => if r.1 = p then r.2.2 else acc)
            (if c = p then k else 0) (groupRunsAux ys y.2 (s + k) 1) =
          0 + (List.filter (fun z : Nat × Int => z.2 == p) (y :: ys)).length
        rw [if_neg (fun hh : c = p => hp hh.symm) (t := k) (e := 0)]
        rw [show (List.foldl (fun acc r => if r.1 = p then r.2.2 else acc) 0
            (groupRunsAux ys y.2 (s + k) 1)) =
          runCountAt (groupRunsAux ys y.2 (s + k) 1) p from rfl]
        rw [ih y.2 (s + k) 1 hpw2 hy_le]
        by_cases hyp : y.2 = p
        · rw [if_pos hyp.symm (t := 1) (e := 0)]
          rw [filter_len_cons_pos (fun z : Nat × Int => z.2 == p) y ys
            (by simp [hyp] : (y.2 == p) = true)]
          omega
        · rw [if_neg (fun hh : p = y.2 => hyp hh.symm) (t := 1) (e := 0)]
          rw [filter_len_cons_neg (fun z : Nat × Int => z.2 == p) y ys
            (by simp [hyp] : (y.2 == p) = false)]

/-- The slot recorded for parent p by grouping a parent-sorted pair
list counts exactly the occurrences of p. -/
theorem groupRuns_count (p : Int) (l : List (Nat × Int))
    (hpw : List.Pairwise (fun a b : Nat × Int => a.2 ≤ b.2) l) :
    runCountAt (groupRuns l) p = (l.filter (fun y => y.2 == p)).length := by
  cases l with
  | nil => rfl
  | cons x xs =>
    show runCountAt (groupRunsAux xs x.2 0 1) p = _
    rw [groupRunsAux_count p xs x.2 0 1 hpw.of_cons
      (fun z hz => List.rel_of_pairwise_cons hpw hz)]
    by_cases hx : x.2 = p
    · rw [if_pos hx.symm (t := 1) (e := 0)]
      rw [filter_len_cons_pos (fun z : Nat × Int => z.2 == p) x xs
        (by simp [hx] : (x.2 == p) = true)]
    · rw [if_neg (fun hh : p = x.2 => hx hh.symm) (t := 1) (e := 0)]
      rw [filter_len_cons_neg (fun z : Nat × Int => z.2 == p) x xs
        (by simp [hx] : (x.2 == p) = false)]
      omega

theorem sortedNodes_pairwise (parents : List Int) :
    List.Pairwise (fun a b : Nat × Int => a.2 ≤ b.2) (sortedNodes parents) := by
  have h := List.sorted_insertionSort nodeSortLE
    ((List.range parents.length).map (fun i => (i, parents.getD i 0)))
  exact h.imp (fun hab => by unfold nodeSortLE at hab; omega)

theorem childCountAt_eq_filter (parents : List Int) (p : Int) :
    childCountAt parents p =
      ((sortedNodes parents).filter (fun y => y.2 == p)).length :=
  groupRuns_count p (sortedNodes parents) (sortedNodes_pairwise parents)

theorem sortedNodes_perm (parents : List Int) :
    (sortedNodes parents).Perm (nodePairs parents) :=
  List.perm_insertionSort nodeSortLE (nodePairs parents)

theorem filter_sorted_eq_pairs (parents : List Int) (p : Int) :
    ((sortedNodes parents).filter (fun y => y.2 == p)).length =
      ((nodePairs parents).filter (fun y => y.2 == p)).length :=
  ((sortedNodes_perm parents).filter (fun y => y.2 == p)).length_eq

theorem map_snd_nodePairs (parents : List Int) :
    (nodePairs parents).map (fun e => e.2) = parents := by
  unfold nodePairs
  rw [List.map_map]
  apply List.ext_getElem
  · simp
  · intro i h1 h2
    simp only [List.getElem_map, List.getElem_range, Function.comp]
    rw [List.getD_eq_getElem parents 0 h2]

theorem filter_pairs_eq_parents (parents : List Int) (p : Int) :
    ((nodePairs parents).filter (fun y => y.2 == p)).length =
      (parents.filter (fun x => x == p)).length := by
  have h1 : ((nodePairs parents).map (fun e => e.2)).filter (fun x => x == p) =
      ((nodePairs parents).filter ((fun x => x == p) ∘ (fun e : Nat × Int => e.2))).map
        (fun e => e.2) :=
    List.filter_map _ _
  rw [map_snd_nodePairs] at h1
  have h2 := congrArg List.length h1
  rw [List.length_map] at h2
  rw [h2]
  rfl

/-- The child count recorded for parent value p equals the number of
nodes whose parent index is p. -/
theorem childCountAt_eq_parents_count (parents : List Int) (p : Int) :
    childCountAt parents p = (parents.filter (fun x => x == p)).length := by
  rw [childCountAt_eq_filter, filter_sorted_eq_pairs, filter_pairs_eq_parents]

theorem sum_map_add_nat {α : Type} (l : List α) (f g : α → Nat) :
    (l.map (fun a => f a + g a)).sum = (l.map f).sum + (l.map g).sum := by
  induction l with
  | nil => rfl
  | cons x xs ih => simp only [List.map_cons, List.sum_cons, ih]; omega

theorem sum_range_indicator (x : Int) : ∀ (n : Nat),
    ((List.range n).map (fun (q : Nat) => if x == (q : Int) then 1 else 0)).sum =
      if 0 ≤ x ∧ x < (n : Int) then 1 else 0 := by
  intro n
  induction n with
  | zero =>
    rw [if_neg (by omega : ¬ (0 ≤ x ∧ x < ((0 : Nat) : Int)))]
    rfl
  | succ n ih =>
    rw [List.range_succ, List.map_append, List.sum_append, ih]
    simp only [List.map_cons, List.map_nil, List.sum_cons, List.sum_nil]
    by_cases hx : x = (n : Int)
    · rw [if_pos (by simp [hx] : (x == (n : Int)) = true) (t := (1 : Nat)) (e := (0 : Nat))]
      rw [if_neg (by omega : ¬ (0 ≤ x ∧ x < (n : Int)))]
      rw [if_pos (by push_cast; omega : 0 ≤ x ∧ x < ((n + 1 : Nat) : Int))]
      omega
    · rw [if_neg (by simp [hx] : ¬ (x == (n : Int)) = true) (t := (1 : Nat)) (e := (0 : Nat))]
      have hiff : (0 ≤ x ∧ x < ((n + 1 : Nat) : Int)) ↔ (0 ≤ x ∧ x < (n : Int)) := by
        push_cast
        omega
      by_cases h2 : 0 ≤ x ∧ x < (n : Int)
      · rw [if_pos h2, if_pos (hiff.mpr h2)]
        omega
      · rw [if_neg h2, if_neg (fun hh => h2 (hiff.mp hh))]
        omega

/-- Partition count: when every parent index is -1 or a valid node
index, the per-parent occurrence counts over 0..n-1 plus the number of
roots add up to the list length. -/
theorem sum_counts_add_roots (n : Nat) : ∀ (l : List Int),
    (∀ p ∈ l, -1 ≤ p ∧ p < (n : Int)) →
    ((List.range n).map (fun (q : Nat) => (l.filter (fun x => x == (q : Int))).length)).sum
      + (l.filter (fun x => x == -1)).length = l.length := by
  intro l
  induction l with
  | nil =>
    intro _
    simp
  | cons x xs ih =>
    intro hb
    have hbx := hb x (by simp)
    have hbxs : ∀ p ∈ xs, -1 ≤ p ∧ p < (n : Int) := fun p hp => hb p (by simp [hp])
    have hsplit : ∀ q : Int, ((x :: xs).filter (fun z => z == q)).length =
        (if x == q then 1 else 0) + (xs.filter (fun z => z == q)).length := by
      intro q
      by_cases hq : x = q
      · rw [filter_len_cons_pos (fun z : Int => z == q) x xs (by simp [hq])]
        rw [if_pos (by simp [hq] : (x == q) = true)]
      · rw [filter_len_cons_neg (fun z : Int => z == q) x xs (by simp [hq])]
        rw [if_neg (by simp [hq] : ¬ (x == q) = true)]
        omega
    have hmap : ((List.range n).map
        (fun (q : Nat) => ((x :: xs).filter (fun z => z == (q : Int))).length)) =
        ((List.range n).map (fun (q : Nat) => (if x == (q : Int) then 1 else 0) +
          (xs.filter (fun z => z == (q : Int))).length)) := by
      apply List.map_congr_left
      intro q _
      exact hsplit (q : Int)
    rw [hmap, sum_map_add_nat, sum_range_indicator x n, hsplit (-1), List.length_cons]
    have hIH := ih hbxs
    by_cases hroot : x = -1
    · rw [if_neg (by omega : ¬ (0 ≤ x ∧ x < (n : Int)))]
      rw [if_pos (by simp [hroot] : (x == (-1 : Int)) = true)]
      omega
    · rw [if_pos (by omega : 0 ≤ x ∧ x < (n : Int))]
      rw [if_neg (by simp [hroot] : ¬ (x == (-1 : Int)) = true)]
      omega

/-- Claim C6 counterexample: the two-node Shape with both parents -1
is a forest within bounds, yet the sum of child counts over the real
parent nodes is 0, not nodeCount - 1 = 1; roots are grouped under the
pseudo-slot of parent -1, so each extra root lowers the sum by one. -/
theorem C6_two_roots_counterexample :
    (∀ p ∈ ([-1, -1] : List Int), -1 ≤ p ∧ p < (([-1, -1] : List Int).length : Int)) ∧
    nodeForestAcyclic [-1, -1] ∧
    sumRealChildCounts [-1, -1] = 0 ∧
    sumRealChildCounts [-1, -1] ≠ ([-1, -1] : List Int).length - 1 := by
  decide

/-- Claim C6 (amended): for every Shape whose parent indices form a
forest (each parent is -1 or a valid node index, and no node is its
own transitive ancestor), the sum of the child counts recorded by
setupNodeList over all real parent nodes equals nodeCount minus the
number of roots - equal to nodeCount - 1 exactly when the Shape has a
single root - and no node is its own transitive ancestor. -/
theorem C6_child_count_sum (parents : List Int)
    (hb : ∀ p ∈ parents, -1 ≤ p ∧ p < (parents.length : Int))
    (hac : nodeForestAcyclic parents) :
    sumRealChildCounts parents = parents.length - rootCount parents ∧
    nodeForestAcyclic parents := by
  refine ⟨?_, hac⟩
  have hmap : (List.range parents.length).map
      (fun (p : Nat) => childCountAt parents (p : Int)) =
      (List.range parents.length).map
      (fun (p : Nat) => (parents.filter (fun x => x == (p : Int))).length) := by
    apply List.map_congr_left
    intro q _
    exact childCountAt_eq_parents_count parents (q : Int)
  show ((List.range parents.length).map
      (fun (p : Nat) => childCountAt parents (p : Int))).sum =
    parents.length - rootCount parents
  rw [hmap]
  have h := sum_counts_add_roots parents.length parents hb
  unfold rootCount
  omega

/-- Claim C6 witness: the amended sum property on the three-node Shape
with parents [-1, 0, 0]: the sum of real child counts is 2 = 3 - 1. -/
theorem C6_child_count_sum_witness :
    sumRealChildCounts [-1, 0, 0] = ([-1, 0, 0] : List Int).length - rootCount [-1, 0, 0] ∧
    nodeForestAcyclic [-1, 0, 0] :=
  C6_child_count_sum [-1, 0, 0] (by decide) (by decide)
